import Mathlib

/-!
Verification of the core data pipeline of the tweet geolocation notebook
(`Project.ipynb`): vocabulary loading (`word_dict`), decoding of raw count
records into vocabulary-aligned rows (`clean_count_and_labels`), the
majority-class baseline (`zero_r`), and the feature-selection step
(`SelectKBest(chi2)` fit/transform, an external library call modelled from
the specification).

Strings are modelled as Lean `String`s and processed over their character
lists; Python `dict`s are modelled as association lists with Python's
insertion semantics (updating an existing key keeps its position, new keys
are appended), so that iteration order matches Python's insertion order.
-/

/-- The double-quote character, written via its code point. -/
def quoteChar : Char := Char.ofNat 34

/-- Python `line.split(sep)`: split a character list on every occurrence of
`sep`, keeping empty fields.  Always returns at least one field. -/
def splitFields (sep : Char) : List Char → List (List Char)
  | [] => [[]]
  | c :: cs =>
    match splitFields sep cs with
    | [] => [[]]
    | f :: rest => if c = sep then [] :: f :: rest else (c :: f) :: rest

/-- Python `line.split(',')[0]`: the text before the first comma (the whole line
when it has no comma). -/
def labelOf (line : String) : String :=
  String.mk (line.data.takeWhile (fun c => c ≠ ','))

/-- Drop characters up to and including the first double quote; `none` when
there is no double quote. -/
def afterFirstQuote : List Char → Option (List Char)
  | [] => none
  | c :: cs => if c = quoteChar then some cs else afterFirstQuote cs

/-- The characters before the next double quote; `none` when there is no
closing double quote. -/
def upToQuote : List Char → Option (List Char)
  | [] => none
  | c :: cs => if c = quoteChar then some [] else (upToQuote cs).map (c :: ·)

/-- Python `re.search('"(.*?)"', line).group(1)`: the contents of the first
double-quoted substring of the line, `none` when the regex does not match
(fewer than two double quotes). -/
def firstQuoted (s : List Char) : Option (List Char) :=
  (afterFirstQuote s).bind upToQuote

/-- Skip ASCII whitespace, as `ast.literal_eval` tolerates around tokens. -/
def skipWs : List Char → List Char
  | [] => []
  | c :: cs => if c = ' ' ∨ c = '\t' ∨ c = '\n' ∨ c = '\r' then skipWs cs else c :: cs

/-- Consume a maximal run of decimal digits, accumulating their value. -/
def parseNatAux : List Char → Nat → Nat × List Char
  | [], acc => (acc, [])
  | c :: cs, acc =>
    if c.isDigit then parseNatAux cs (10 * acc + (c.toNat - 48)) else (acc, c :: cs)

/-- Parse an optionally negated decimal integer literal (at least one
digit), returning the value and the rest of the input. -/
def parseInt (s : List Char) : Option (Int × List Char) :=
  match skipWs s with
  | [] => none
  | c :: cs =>
    if c = '-' then
      match cs with
      | [] => none
      | d :: _ =>
        if d.isDigit then
          let (n, rest) := parseNatAux cs 0
          some (-(n : Int), rest)
        else none
    else if c.isDigit then
      let (n, rest) := parseNatAux (c :: cs) 0
      some ((n : Int), rest)
    else none

/-- Parse one `(term-id, count)` tuple of the sparse literal. -/
def parsePair (s : List Char) : Option ((Int × Int) × List Char) :=
  match skipWs s with
  | [] => none
  | c :: cs =>
    if c = '(' then
      match parseInt cs with
      | none => none
      | some (a, r1) =>
        match skipWs r1 with
        | [] => none
        | c2 :: r2 =>
          if c2 = ',' then
            match parseInt r2 with
            | none => none
            | some (b, r3) =>
              match skipWs r3 with
              | [] => none
              | c3 :: r4 => if c3 = ')' then some ((a, b), r4) else none
          else none
    else none

/-- Parse the comma-separated tuples after the opening bracket of a
non-empty list literal, up to and including the closing bracket; the
remaining input must be blank.  `fuel` bounds the recursion and is always
supplied at least the input length plus one, which suffices because each
tuple consumes at least one character. -/
def parsePairsAux : Nat → List Char → Option (List (Int × Int))
  | 0, _ => none
  | fuel + 1, s =>
    match parsePair s with
    | none => none
    | some (p, rest) =>
      match skipWs rest with
      | [] => none
      | c :: cs =>
        if c = ',' then (parsePairsAux fuel cs).map (p :: ·)
        else if c = ']' then (if skipWs cs = [] then some [p] else none)
        else none

/-- Python `ast.literal_eval(payload)` restricted to the shape the notebook
consumes: a (possibly empty) list literal of integer 2-tuples.  Any other
payload is a parse failure, which in Python raises and aborts the dataset
build. -/
def parsePairList (s : List Char) : Option (List (Int × Int)) :=
  match skipWs s with
  | [] => none
  | c :: cs =>
    if c = '[' then
      match skipWs cs with
      | [] => none
      | c2 :: cs2 =>
        if c2 = ']' then (if skipWs cs2 = [] then some [] else none)
        else parsePairsAux (s.length + 1) (c2 :: cs2)
    else none

/-- The dict comprehension built from the pair list, looked up at `j`: the
count of the last pair whose term-id is `j` (later pairs overwrite earlier
ones in a Python dict comprehension), `none` when no pair has id `j`. -/
def lookupLast (pairs : List (Int × Int)) (j : Int) : Option Int :=
  match pairs with
  | [] => none
  | (a, c) :: rest =>
    match lookupLast rest j with
    | some r => some r
    | none => if j = a then some c else none

/-- Association-list lookup: the value at the first matching key. -/
def alookup {β : Type} : List (String × β) → String → Option β
  | [], _ => none
  | p :: rest, l => if p.1 = l then some p.2 else alookup rest l

/-- Python `d[k] = v` on a dict modelled as an association list: an
existing key keeps its position and gets the new value, a new key is
appended, matching Python's insertion-order semantics. -/
def dictInsert {β : Type} (d : List (String × β)) (k : String) (v : β) :
    List (String × β) :=
  if d.any (fun p => p.1 = k) then
    d.map (fun p => if p.1 = k then (k, v) else p)
  else d ++ [(k, v)]

/-- One line of `vocab.txt`: `line.split('\t')` must have a second field
(at least one tab) and `int(split_line[1])` must parse; the second field is
everything between the first and second tab.  Python's `int` strips
surrounding whitespace, which `parseInt` also skips, and the trailing rest
after the digits is whitespace for well-formed lines. -/
def parseVocabLine (line : String) : Option (String × Int) :=
  match splitFields '\t' line.data with
  | t :: idField :: _ =>
    match parseInt idField with
    | some (n, rest) => if skipWs rest = [] then some (String.mk t, n) else none
    | none => none
  | _ => none

/-- The loop building `word_dict`, threading the dict being built. -/
def word_dictAux (d : List (String × Int)) : List String → Option (List (String × Int))
  | [] => some d
  | line :: rest =>
    match parseVocabLine line with
    | none => none
    | some (t, n) => word_dictAux (dictInsert d t n) rest

/-- Build `word_dict`: fold the vocabulary lines into a dict, term to id. -/
def word_dict (lines : List String) : Option (List (String × Int)) :=
  word_dictAux [] lines

/-- Python `dictionary.values()` in insertion order. -/
def wordValues (dict : List (String × Int)) : List Int :=
  dict.map Prod.snd

/-- The row built for one record: for each vocabulary id `j` in order, the
record's count at `j` when present, else `0`. -/
def rowOf (dict : List (String × Int)) (pairs : List (Int × Int)) : List Int :=
  (wordValues dict).map (fun j => (lookupLast pairs j).getD 0)

/-- Decode one raw count line: the label is the text before the first
comma; the payload is the first double-quoted substring, parsed as a pair
list; failure of either step is a decode failure for the record. -/
def decodeLine (dict : List (String × Int)) (line : String) :
    Option (List Int × String) :=
  match firstQuoted line.data with
  | none => none
  | some payload =>
    match parsePairList payload with
    | none => none
    | some pairs => some (rowOf dict pairs, labelOf line)

/-- The builder `clean_count_and_labels`: decode every line in order into the count
matrix and the label list; any single decode failure aborts the whole
build (in Python the exception propagates out of the loop). -/
def clean_count_and_labels (dict : List (String × Int)) :
    List String → Option (List (List Int) × List String)
  | [] => some ([], [])
  | line :: rest =>
    match decodeLine dict line, clean_count_and_labels dict rest with
    | some (row, lab), some (rows, labs) => some (row :: rows, lab :: labs)
    | _, _ => none

/-- Python `Counter`-style increment: bump an existing key in place, else append
it with count 1 (Python `Counter` preserves first-insertion order). -/
def counterIncr (d : List (String × Nat)) (l : String) : List (String × Nat) :=
  if d.any (fun p => p.1 = l) then
    d.map (fun p => if p.1 = l then (p.1, p.2 + 1) else p)
  else d ++ [(l, 1)]

/-- The `label_counts` Counter built by `zero_r`'s loop. -/
def counterList (labels : List String) : List (String × Nat) :=
  labels.foldl counterIncr []

/-- Python `label_counts.most_common()[0]`: the first entry of the counter sorted
by descending count.  Python's sort is stable, so ties keep insertion
order; this fold keeps the earliest entry among maximal counts.  `none` on
an empty counter, where Python raises an IndexError. -/
def most_common_first : List (String × Nat) → Option (String × Nat)
  | [] => none
  | p :: rest => some (rest.foldl (fun best q => if q.2 > best.2 then q else best) p)

/-- The baseline `zero_r`: count the training labels, take the majority class, and
repeat it once per row of the test feature matrix. -/
def zero_r (train_labels : List String) (test_features : List (List Int)) :
    Option (List String) :=
  match most_common_first (counterList train_labels) with
  | none => none
  | some (lab, _) => some (List.replicate test_features.length lab)

/-- Modelled from the spec: the `SelectedFeatureSet` produced by the
feature selector (`SelectKBest(chi2)` in the notebook, external library
code not present in the repository): the column count the selector was
fitted against and the ordered list of retained column indices. -/
structure SelectedFeatureSet where
  nFeatures : Nat
  selected : List Nat
deriving DecidableEq

/-- The distinct labels in first-occurrence order. -/
def classList (labels : List String) : List String :=
  labels.foldl (fun acc l => if l ∈ acc then acc else acc ++ [l]) []

/-- The total of column `j` over all rows. -/
def colSum (m : List (List Int)) (j : Nat) : Int :=
  (m.map (fun row => row.getD j 0)).sum

/-- The total of column `j` over the rows whose label is `c`. -/
def classColSum (m : List (List Int)) (labels : List String) (c : String)
    (j : Nat) : Int :=
  (((m.zip labels).filter (fun p => p.2 = c)).map (fun p => p.1.getD j 0)).sum

/-- An exact unnormalized fraction over the integers, used for the
chi-squared scores so that every score computation is plain integer
arithmetic (a numerator and a denominator, never reduced). -/
structure Frac where
  num : Int
  den : Int
deriving DecidableEq

/-- Fraction addition. -/
def fadd (x y : Frac) : Frac := ⟨x.num * y.den + y.num * x.den, x.den * y.den⟩

/-- Fraction subtraction. -/
def fsub (x y : Frac) : Frac := ⟨x.num * y.den - y.num * x.den, x.den * y.den⟩

/-- Fraction multiplication. -/
def fmul (x y : Frac) : Frac := ⟨x.num * y.num, x.den * y.den⟩

/-- Fraction division (a zero divisor yields a degenerate fraction,
mirroring the undefined chi-squared term on a zero expected count). -/
def fdiv (x y : Frac) : Frac := ⟨x.num * y.den, x.den * y.num⟩

/-- Strict comparison of fractions: `a/b < c/d` iff `a*b*d² < c*d*b²`,
valid for nonzero denominators of either sign. -/
def fltb (x y : Frac) : Bool :=
  x.num * x.den * (y.den * y.den) < y.num * y.den * (x.den * x.den)

/-- Sum of a list of fractions. -/
def fsum : List Frac → Frac
  | [] => ⟨0, 1⟩
  | x :: rest => fadd x (fsum rest)

/-- An integer as a fraction. -/
def fofInt (n : Int) : Frac := ⟨n, 1⟩

/-- Modelled from the spec: the chi-squared statistic of column `j`
against the label distribution — observed per-class column totals versus
the expected totals under independence (class probability times the
column's grand total), summed over the classes.  Exact rational
arithmetic (unnormalized integer fractions) replaces the library's
floating point. -/
def chi2Score (m : List (List Int)) (labels : List String) (j : Nat) : Frac :=
  fsum ((classList labels).map (fun c =>
    let obs := fofInt (classColSum m labels c j)
    let e := fmul (fdiv (fofInt (labels.count c : Int))
                        (fofInt (labels.length : Int)))
                  (fofInt (colSum m j))
    fdiv (fmul (fsub obs e) (fsub obs e)) e))

/-- Insert index `i` into a list already sorted by descending score,
placing `i` after every index of score ≥ its own, so that equal scores
keep insertion order (the stable tie-break by original column index). -/
def insertDesc (score : Nat → Frac) (i : Nat) : List Nat → List Nat
  | [] => [i]
  | j :: rest =>
    if fltb (score j) (score i) then i :: j :: rest else j :: insertDesc score i rest

/-- All of `0, …, w-1` sorted by descending score, ties by ascending
index. -/
def sortDesc (score : Nat → Frac) (w : Nat) : List Nat :=
  (List.range w).foldl (fun acc i => insertDesc score i acc) []

/-- Modelled from the spec: `fit(trainMatrix, trainLabels, k)` — score
every column by chi-squared against the training labels, rank descending
with the stable tie-break, and retain the first `k` indices; fails with an
invalid-parameter condition when `k` is zero or exceeds the column
count. -/
def fit (m : List (List Int)) (labels : List String) (k : Nat) :
    Option SelectedFeatureSet :=
  if k = 0 ∨ (m.headD []).length < k then none
  else some ⟨(m.headD []).length,
             (sortDesc (chi2Score m labels) (m.headD []).length).take k⟩

/-- Modelled from the spec: `transform(matrix, selectedFeatureSet)` —
project the matrix onto the selected columns in selection order; a matrix
whose rows do not have the fitted column count is a shape-mismatch
error. -/
def transform (s : SelectedFeatureSet) (m : List (List Int)) :
    Option (List (List Int)) :=
  if ∀ row ∈ m, row.length = s.nFeatures then
    some (m.map (fun row => s.selected.map (fun j => row.getD j 0)))
  else none

/-- The selector the pipeline fits: decode the training lines and fit on
the training matrix and labels only. -/
def selOf (dict : List (String × Int)) (trainL : List String) (k : Nat) :
    Option SelectedFeatureSet :=
  match clean_count_and_labels dict trainL with
  | none => none
  | some (tm, tlab) => fit tm tlab k

/-- The notebook's feature path end to end: build the three matrices from
their raw lines against the shared vocabulary, fit the selector on the
training matrix and labels, and project all three matrices with it. -/
def runPipeline (dict : List (String × Int)) (trainL devL testL : List String)
    (k : Nat) :
    Option (SelectedFeatureSet × List (List Int) × List (List Int) × List (List Int)) :=
  match clean_count_and_labels dict trainL with
  | none => none
  | some (tm, tlab) =>
    match clean_count_and_labels dict devL, clean_count_and_labels dict testL with
    | some (dm, _), some (em, _) =>
      match fit tm tlab k with
      | none => none
      | some s =>
        match transform s tm, transform s dm, transform s em with
        | some tp, some dp, some ep => some (s, tp, dp, ep)
        | _, _, _ => none
    | _, _ => none

/-! ## Helper lemmas about the dataset build -/

theorem clean_length_labels (dict : List (String × Int)) (raw : List String) :
    ∀ cnt labs, clean_count_and_labels dict raw = some (cnt, labs) →
      cnt.length = raw.length ∧ labs = raw.map labelOf := by
  induction raw with
  | nil =>
    intro cnt labs h
    simp [clean_count_and_labels] at h
    simp [h.1, h.2]
  | cons line rest ih =>
    intro cnt labs h
    unfold clean_count_and_labels at h
    cases hd : decodeLine dict line with
    | none => rw [hd] at h; simp at h
    | some rl =>
      cases hr : clean_count_and_labels dict rest with
      | none => rw [hd, hr] at h; simp at h
      | some pr =>
        obtain ⟨row, lab⟩ := rl
        obtain ⟨rows, labs2⟩ := pr
        rw [hd, hr] at h
        simp at h
        obtain ⟨h1, h2⟩ := h
        obtain ⟨ihl, ihm⟩ := ih rows labs2 hr
        have hlab : lab = labelOf line := by
          unfold decodeLine at hd
          cases hq : firstQuoted line.data with
          | none => rw [hq] at hd; simp at hd
          | some payload =>
            rw [hq] at hd
            simp only [] at hd
            cases hp : parsePairList payload with
            | none => rw [hp] at hd; simp at hd
            | some pairs => rw [hp] at hd; simp at hd; exact hd.2.symm
        subst h1 h2
        constructor
        · simp [ihl]
        · simp [hlab, ihm]

theorem clean_fails_of_decode_fails (dict : List (String × Int)) (raw : List String)
    (line : String) (hm : line ∈ raw) (hd : decodeLine dict line = none) :
    clean_count_and_labels dict raw = none := by
  induction raw with
  | nil => cases hm
  | cons x rest ih =>
    unfold clean_count_and_labels
    rcases List.mem_cons.mp hm with h | h
    · subst h
      rw [hd]
    · rw [ih h]
      rcases decodeLine dict x with _ | ⟨r, l⟩
      · rfl
      · rfl

/-- Claim C4: if decoding any single record line fails, the whole dataset
build fails — `clean_count_and_labels` never silently drops a row — and on
success the row count equals the number of input lines. -/
theorem c4_no_row_dropped (dict : List (String × Int)) (raw : List String) :
    (∀ cnt labs, clean_count_and_labels dict raw = some (cnt, labs) →
      cnt.length = raw.length)
    ∧ (∀ line ∈ raw, decodeLine dict line = none →
      clean_count_and_labels dict raw = none) := by
  constructor
  · intro cnt labs h
    exact (clean_length_labels dict raw cnt labs h).1
  · intro line hm hd
    exact clean_fails_of_decode_fails dict raw line hm hd

theorem c4_no_row_dropped_witness :
    ([[2]] : List (List Int)).length = (["X,\"[(0, 2)]\""] : List String).length
    ∧ clean_count_and_labels [("a", 0)] ["Helloworld"] = none :=
  ⟨(c4_no_row_dropped [("a", 0)] ["X,\"[(0, 2)]\""]).1 [[2]] ["X"] (by decide),
   (c4_no_row_dropped [("a", 0)] ["Helloworld"]).2 "Helloworld" (by decide) (by decide)⟩

/-- Claim C10: on a successful build there is exactly one label per input
line, and every label is the text before the first comma of its line, also
for the unlabeled test set where that text is meaningless. -/
theorem c10_label_every_line (dict : List (String × Int)) (raw : List String)
    (cnt : List (List Int)) (labs : List String)
    (h : clean_count_and_labels dict raw = some (cnt, labs)) :
    labs = raw.map labelOf ∧ labs.length = raw.length := by
  obtain ⟨_, hmap⟩ := clean_length_labels dict raw cnt labs h
  exact ⟨hmap, by rw [hmap, List.length_map]⟩

theorem c10_label_every_line_witness :
    (["X", "NoComma\"[]\""] : List String)
        = (["X,\"[]\"", "NoComma\"[]\""] : List String).map labelOf
    ∧ (["X", "NoComma\"[]\""] : List String).length
        = (["X,\"[]\"", "NoComma\"[]\""] : List String).length :=
  c10_label_every_line [("a", 0)] ["X,\"[]\"", "NoComma\"[]\""]
    [[0], [0]] ["X", "NoComma\"[]\""] (by decide)

/-! ## Lemmas about the quoted-payload search -/

theorem afterFirstQuote_count (s : List Char) (rest : List Char)
    (h : afterFirstQuote s = some rest) :
    s.count quoteChar = rest.count quoteChar + 1 := by
  induction s with
  | nil => simp [afterFirstQuote] at h
  | cons c cs ih =>
    unfold afterFirstQuote at h
    by_cases hc : c = quoteChar
    · rw [if_pos hc] at h
      obtain rfl : cs = rest := Option.some.inj h
      simp [List.count_cons, hc]
    · rw [if_neg hc] at h
      have := ih h
      simp [List.count_cons, hc, this]

theorem upToQuote_mem (s : List Char) (h : upToQuote s ≠ none) :
    quoteChar ∈ s := by
  induction s with
  | nil => simp [upToQuote] at h
  | cons c cs ih =>
    by_cases hc : c = quoteChar
    · simp [hc]
    · unfold upToQuote at h
      rw [if_neg hc] at h
      rcases hu : upToQuote cs with _ | r2
      · rw [hu] at h; simp at h
      · exact List.mem_cons_of_mem c (ih (by rw [hu]; simp))

theorem firstQuoted_none_of_count (s : List Char) (h : s.count quoteChar ≤ 1) :
    firstQuoted s = none := by
  unfold firstQuoted
  rcases ha : afterFirstQuote s with _ | rest
  · rfl
  · have hcnt := afterFirstQuote_count s rest ha
    rcases hu : upToQuote rest with _ | r
    · simp [hu]
    · exfalso
      have hmem := upToQuote_mem rest (by rw [hu]; simp)
      have hpos : 0 < rest.count quoteChar := List.count_pos_iff.mpr hmem
      omega

/-- Claim C8: a line with no double-quoted substring (fewer than two double
quotes) fails to decode — the regex lookup finds no match and the dataset
build containing that line aborts — however well-formed the rest of the
line is. -/
theorem c8_quote_required (dict : List (String × Int)) (line : String)
    (raw : List String) (hq : line.data.count quoteChar ≤ 1) (hm : line ∈ raw) :
    decodeLine dict line = none ∧ clean_count_and_labels dict raw = none := by
  have hdec : decodeLine dict line = none := by
    unfold decodeLine
    rw [firstQuoted_none_of_count line.data hq]
  exact ⟨hdec, clean_fails_of_decode_fails dict raw line hm hdec⟩

theorem c8_quote_required_witness :
    decodeLine [("a", 0)] "MIDWEST,(0, 2)" = none
    ∧ clean_count_and_labels [("a", 0)] ["MIDWEST,(0, 2)"] = none :=
  c8_quote_required [("a", 0)] "MIDWEST,(0, 2)" ["MIDWEST,(0, 2)"]
    (by decide) (by decide)

/-! ## Lemmas about the per-record count lookup -/

theorem lookupLast_eq_none (pairs : List (Int × Int)) (j : Int)
    (h : j ∉ pairs.map Prod.fst) : lookupLast pairs j = none := by
  induction pairs with
  | nil => rfl
  | cons p rest ih =>
    obtain ⟨a, c⟩ := p
    have hja : j ≠ a := by
      intro he
      exact h (by simp [he])
    have hrest : j ∉ rest.map Prod.fst := by
      intro he
      exact h (by simp [he])
    unfold lookupLast
    rw [ih hrest, if_neg hja]

theorem lookupLast_cons_fresh (a c : Int) (rest : List (Int × Int)) (j : Int)
    (h : a ∉ rest.map Prod.fst) :
    lookupLast ((a, c) :: rest) j = if j = a then some c else lookupLast rest j := by
  have hstep : lookupLast ((a, c) :: rest) j
      = match lookupLast rest j with
        | some r => some r
        | none => if j = a then some c else none := by
    simp [lookupLast]
  rw [hstep]
  rcases hr : lookupLast rest j with _ | r
  · by_cases hj : j = a
    · simp [hj]
    · simp [hj, hr]
  · by_cases hj : j = a
    · rw [hj, lookupLast_eq_none rest a h] at hr
      cases hr
    · simp [hj, hr]

theorem map_add_sum (l : List Int) (f g : Int → Int) :
    (l.map (fun j => f j + g j)).sum = (l.map f).sum + (l.map g).sum := by
  induction l with
  | nil => simp
  | cons x xs ih => simp [ih]; ring

theorem sum_single_indicator (values : List Int) (a c : Int)
    (hnd : values.Nodup) (hmem : a ∈ values) :
    (values.map (fun j => if j = a then c else 0)).sum = c := by
  induction values with
  | nil => cases hmem
  | cons v vs ih =>
    obtain ⟨hv, hvs⟩ := List.nodup_cons.mp hnd
    rcases List.mem_cons.mp hmem with h | h
    · subst h
      have hz : ((vs.map (fun j => if j = a then c else 0)).sum : Int) = 0 := by
        apply List.sum_eq_zero
        intro x hx
        obtain ⟨j, hj, hje⟩ := List.mem_map.mp hx
        have hne : j ≠ a := fun he => hv (he ▸ hj)
        rw [if_neg hne] at hje
        exact hje.symm
      simp [hz]
    · have hva : v ≠ a := by
        intro he
        exact hv (he ▸ h)
      simp [if_neg hva, ih hvs h]

theorem row_sum_eq (values : List Int) (pairs : List (Int × Int))
    (hv : values.Nodup) (hp : (pairs.map Prod.fst).Nodup)
    (hsub : ∀ p ∈ pairs, p.1 ∈ values) :
    (values.map (fun j => (lookupLast pairs j).getD 0)).sum
      = (pairs.map Prod.snd).sum := by
  induction pairs with
  | nil => simp [lookupLast]
  | cons pc rest ih =>
    obtain ⟨a, c⟩ := pc
    have ha : a ∉ rest.map Prod.fst := (List.nodup_cons.mp hp).1
    have hrest : (rest.map Prod.fst).Nodup := (List.nodup_cons.mp hp).2
    have hamem : a ∈ values := hsub (a, c) (List.mem_cons_self _ _)
    have hsubr : ∀ p ∈ rest, p.1 ∈ values := fun p hp2 =>
      hsub p (List.mem_cons_of_mem _ hp2)
    have hfun : values.map (fun j => (lookupLast ((a, c) :: rest) j).getD 0)
        = values.map (fun j => (lookupLast rest j).getD 0 + (if j = a then c else 0)) := by
      apply List.map_congr_left
      intro j _
      rw [lookupLast_cons_fresh a c rest j ha]
      by_cases hj : j = a
      · subst hj
        rw [if_pos rfl, if_pos rfl, lookupLast_eq_none rest j ha]
        simp
      · rw [if_neg hj, if_neg hj]
        simp
    rw [hfun, map_add_sum, ih hrest hsubr,
        sum_single_indicator values a c hv hamem]
    simp
    ring

/-- Claim C1: a decoded row has length equal to the number of vocabulary
entries, and its entries sum to the sum of the counts in the record's
sparse pair list, provided every term-id of the pair list is a valid id of
the vocabulary (with the data-model invariants that the vocabulary's ids
are distinct and the record's pair list is a set, i.e. has distinct
term-ids). -/
theorem c1_row_length_and_sum (dict : List (String × Int)) (line : String)
    (payload : List Char) (pairs : List (Int × Int))
    (hq : firstQuoted line.data = some payload)
    (hp : parsePairList payload = some pairs)
    (hv : (wordValues dict).Nodup)
    (hids : (pairs.map Prod.fst).Nodup)
    (hsub : ∀ p ∈ pairs, p.1 ∈ wordValues dict) :
    decodeLine dict line = some (rowOf dict pairs, labelOf line)
    ∧ (rowOf dict pairs).length = dict.length
    ∧ (rowOf dict pairs).sum = (pairs.map Prod.snd).sum := by
  refine ⟨?_, ?_, ?_⟩
  · unfold decodeLine
    rw [hq]
    simp only []
    rw [hp]
  · simp [rowOf, wordValues]
  · exact row_sum_eq (wordValues dict) pairs hv hids hsub

theorem c1_row_length_and_sum_witness :
    decodeLine [("a", 0), ("b", 1), ("c", 2)] "X,\"[(0, 3), (2, 1)]\""
      = some (rowOf [("a", 0), ("b", 1), ("c", 2)] [(0, 3), (2, 1)],
              labelOf "X,\"[(0, 3), (2, 1)]\"")
    ∧ (rowOf [("a", 0), ("b", 1), ("c", 2)] [(0, 3), (2, 1)]).length
        = ([("a", 0), ("b", 1), ("c", 2)] : List (String × Int)).length
    ∧ (rowOf [("a", 0), ("b", 1), ("c", 2)] [(0, 3), (2, 1)]).sum
        = (([(0, 3), (2, 1)] : List (Int × Int)).map Prod.snd).sum :=
  c1_row_length_and_sum [("a", 0), ("b", 1), ("c", 2)] "X,\"[(0, 3), (2, 1)]\""
    ("[(0, 3), (2, 1)]".data) [(0, 3), (2, 1)]
    (by decide) (by decide) (by decide) (by decide) (by decide)

theorem lookupLast_cons_step (a cc : Int) (rest : List (Int × Int)) (j : Int) :
    lookupLast ((a, cc) :: rest) j
      = match lookupLast rest j with
        | some r => some r
        | none => if j = a then some cc else none := by
  simp [lookupLast]

theorem lookupLast_filter_ne (pairs : List (Int × Int)) (i j : Int) (hne : j ≠ i) :
    lookupLast (pairs.filter (fun p => p.1 ≠ i)) j = lookupLast pairs j := by
  induction pairs with
  | nil => rfl
  | cons p rest ih =>
    obtain ⟨a, cc⟩ := p
    rw [List.filter_cons]
    by_cases ha : a = i
    · rw [if_neg (by simp [ha])]
      rw [ih, lookupLast_cons_step a cc rest j]
      rcases hr : lookupLast rest j with _ | r
      · show (none : Option Int) = if j = a then some cc else none
        rw [if_neg (by rw [ha]; exact hne)]
      · rfl
    · rw [if_pos (by simp [ha])]
      rw [lookupLast_cons_step a cc (rest.filter (fun p => p.1 ≠ i)) j,
          lookupLast_cons_step a cc rest j, ih]

/-- Claim C5: a record whose pair list contains a term-id outside the
vocabulary's ids still decodes successfully; the out-of-range pairs match
no column, so dropping every pair with that id leaves the row unchanged,
and no error is reported. -/
theorem c5_out_of_range_id_tolerated (dict : List (String × Int)) (line : String)
    (payload : List Char) (pairs : List (Int × Int)) (i c : Int)
    (hq : firstQuoted line.data = some payload)
    (hp : parsePairList payload = some pairs)
    (hmem : (i, c) ∈ pairs) (hout : i ∉ wordValues dict) :
    decodeLine dict line = some (rowOf dict pairs, labelOf line)
    ∧ rowOf dict pairs = rowOf dict (pairs.filter (fun p => p.1 ≠ i)) := by
  constructor
  · unfold decodeLine
    rw [hq]
    simp only []
    rw [hp]
  · unfold rowOf
    apply List.map_congr_left
    intro j hj
    have hji : j ≠ i := fun he => hout (he ▸ hj)
    rw [lookupLast_filter_ne pairs i j hji]

theorem c5_out_of_range_id_tolerated_witness :
    decodeLine [("a", 0)] "X,\"[(5, 7)]\""
      = some (rowOf [("a", 0)] [(5, 7)], labelOf "X,\"[(5, 7)]\"")
    ∧ rowOf [("a", 0)] [(5, 7)]
        = rowOf [("a", 0)] (([(5, 7)] : List (Int × Int)).filter (fun p => p.1 ≠ 5)) :=
  c5_out_of_range_id_tolerated [("a", 0)] "X,\"[(5, 7)]\"" ("[(5, 7)]".data)
    [(5, 7)] 5 7 (by decide) (by decide) (by decide) (by decide)

theorem lookupLast_append_last (p1 p2 : List (Int × Int)) (i c : Int)
    (h : i ∉ p2.map Prod.fst) :
    lookupLast (p1 ++ (i, c) :: p2) i = some c := by
  induction p1 with
  | nil =>
    rw [List.nil_append, lookupLast_cons_step i c p2 i,
        lookupLast_eq_none p2 i h, if_pos rfl]
  | cons q rest ih =>
    obtain ⟨a, b⟩ := q
    rw [List.cons_append, lookupLast_cons_step a b (rest ++ (i, c) :: p2) i, ih]

theorem getD_map_lt (l : List Int) (f : Int → Int) :
    ∀ (k : Nat) (d dd : Int), k < l.length →
      (l.map f).getD k dd = f (l.getD k d) := by
  induction l with
  | nil =>
    intro k d dd hk
    simp at hk
  | cons x xs ih =>
    intro k d dd hk
    cases k with
    | zero => rfl
    | succ k2 =>
      simp only [List.map_cons, List.getD_cons_succ]
      exact ih k2 d dd (by simpa using hk)

/-- Claim C9: when the sparse pair list repeats a term-id, the decoded row
uses the count of the last pair with that id — later pairs overwrite
earlier ones in the dict comprehension — without summing and without
error. -/
theorem c9_duplicate_id_last_wins (dict : List (String × Int)) (line : String)
    (payload : List Char) (p1 p2 : List (Int × Int)) (i c : Int)
    (hq : firstQuoted line.data = some payload)
    (hp : parsePairList payload = some (p1 ++ (i, c) :: p2))
    (hlast : i ∉ p2.map Prod.fst) :
    decodeLine dict line = some (rowOf dict (p1 ++ (i, c) :: p2), labelOf line)
    ∧ lookupLast (p1 ++ (i, c) :: p2) i = some c
    ∧ ∀ k : Nat, (wordValues dict).getD k (i + 1) = i →
        (rowOf dict (p1 ++ (i, c) :: p2)).getD k 0 = c := by
  refine ⟨?_, lookupLast_append_last p1 p2 i c hlast, ?_⟩
  · unfold decodeLine
    rw [hq]
    simp only []
    rw [hp]
  · intro k hk
    by_cases hlt : k < (wordValues dict).length
    · unfold rowOf
      rw [getD_map_lt (wordValues dict) _ k (i + 1) 0 hlt, hk,
          lookupLast_append_last p1 p2 i c hlast]
      rfl
    · exfalso
      rw [List.getD_eq_default _ _ (Nat.le_of_not_lt hlt)] at hk
      omega

theorem c9_duplicate_id_last_wins_witness :
    decodeLine [("a", 0)] "X,\"[(0, 1), (0, 4)]\""
      = some (rowOf [("a", 0)] ([(0, 1)] ++ (0, 4) :: []), labelOf "X,\"[(0, 1), (0, 4)]\"")
    ∧ lookupLast ([(0, 1)] ++ (0, 4) :: []) 0 = some 4
    ∧ (rowOf [("a", 0)] ([(0, 1)] ++ (0, 4) :: [])).getD 0 0 = 4 := by
  have h := c9_duplicate_id_last_wins [("a", 0)] "X,\"[(0, 1), (0, 4)]\""
    ("[(0, 1), (0, 4)]".data) [(0, 1)] [] 0 4 (by decide) (by decide) (by decide)
  exact ⟨h.1, h.2.1, h.2.2 0 (by decide)⟩

/-! ## Lemmas about the Python-dict model -/

theorem alookup_map_update {β : Type} (d : List (String × β)) (t : String) (n : β) :
    alookup (d.map (fun p => if p.1 = t then (t, n) else p)) t
      = (alookup d t).map (fun _ => n) := by
  induction d with
  | nil => rfl
  | cons p rest ih =>
    by_cases hp : p.1 = t
    · simp [alookup, hp]
    · simp [alookup, hp, ih]

theorem any_key_iff {β : Type} (d : List (String × β)) (t : String) :
    (d.any fun p => p.1 = t) = true ↔ (alookup d t).isSome = true := by
  induction d with
  | nil => simp [alookup]
  | cons p rest ih =>
    by_cases hp : p.1 = t
    · simp [alookup, hp]
    · simp [alookup, List.any_cons, hp, ih]

theorem alookup_map_update_other {β : Type} (d : List (String × β))
    (t t2 : String) (n : β) (hne : t2 ≠ t) :
    alookup (d.map (fun p => if p.1 = t then (t, n) else p)) t2 = alookup d t2 := by
  induction d with
  | nil => rfl
  | cons p rest ih =>
    by_cases hp : p.1 = t
    · have h1 : t ≠ t2 := fun he => hne he.symm
      have h2 : p.1 ≠ t2 := by rw [hp]; exact h1
      simp [alookup, hp, h1, h2, ih]
    · by_cases hp2 : p.1 = t2
      · simp [alookup, hp, hp2, hne]
      · simp [alookup, hp, hp2, ih]

theorem alookup_append {β : Type} (d l2 : List (String × β)) (t : String) :
    alookup (d ++ l2) t
      = match alookup d t with
        | some v => some v
        | none => alookup l2 t := by
  induction d with
  | nil => simp [alookup]
  | cons p rest ih =>
    by_cases hp : p.1 = t
    · simp [alookup, hp]
    · simp [alookup, hp, ih]

theorem alookup_dictInsert_self {β : Type} (d : List (String × β)) (t : String) (n : β) :
    alookup (dictInsert d t n) t = some n := by
  unfold dictInsert
  by_cases h : (d.any fun p => p.1 = t) = true
  · rw [if_pos h, alookup_map_update]
    obtain ⟨v, hv⟩ := Option.isSome_iff_exists.mp ((any_key_iff d t).mp h)
    rw [hv]
    rfl
  · rw [if_neg h, alookup_append]
    have hnone : alookup d t = none := by
      rcases ho : alookup d t with _ | v
      · rfl
      · exact absurd ((any_key_iff d t).mpr (by simp [ho])) h
    rw [hnone]
    simp [alookup]

theorem alookup_dictInsert_other {β : Type} (d : List (String × β)) (t t2 : String)
    (n : β) (hne : t2 ≠ t) : alookup (dictInsert d t n) t2 = alookup d t2 := by
  unfold dictInsert
  by_cases h : (d.any fun p => p.1 = t) = true
  · rw [if_pos h]
    exact alookup_map_update_other d t t2 n hne
  · rw [if_neg h, alookup_append]
    rcases ho : alookup d t2 with _ | v
    · have h1 : t ≠ t2 := fun he => hne he.symm
      simp [alookup, h1]
    · rfl

theorem word_dictAux_cons (d : List (String × Int)) (line : String)
    (rest : List String) :
    word_dictAux d (line :: rest)
      = match parseVocabLine line with
        | none => none
        | some (t, n) => word_dictAux (dictInsert d t n) rest := by
  simp [word_dictAux]

theorem word_dictAux_append (xs ys : List String) :
    ∀ d, word_dictAux d (xs ++ ys)
      = (word_dictAux d xs).bind (fun d2 => word_dictAux d2 ys) := by
  induction xs with
  | nil => intro d; rfl
  | cons line rest ih =>
    intro d
    rw [List.cons_append, word_dictAux_cons, word_dictAux_cons]
    rcases hp : parseVocabLine line with _ | ⟨t, n⟩
    · rfl
    · exact ih (dictInsert d t n)

theorem word_dictAux_isSome (ls : List String) :
    ∀ d, (∀ l ∈ ls, (parseVocabLine l).isSome) → (word_dictAux d ls).isSome := by
  induction ls with
  | nil => intro d _; rfl
  | cons line rest ih =>
    intro d h
    rw [word_dictAux_cons]
    rcases hp : parseVocabLine line with _ | ⟨t, n⟩
    · have hl := h line (List.mem_cons_self _ _)
      rw [hp] at hl
      cases hl
    · exact ih (dictInsert d t n) (fun l hl => h l (List.mem_cons_of_mem _ hl))

theorem word_dictAux_lookup_pres (t : String) (ls : List String) :
    ∀ d d2, word_dictAux d ls = some d2 →
      (∀ l ∈ ls, ∀ s m, parseVocabLine l = some (s, m) → s ≠ t) →
      alookup d2 t = alookup d t := by
  induction ls with
  | nil =>
    intro d d2 h _
    obtain rfl : d = d2 := Option.some.inj h
    rfl
  | cons line rest ih =>
    intro d d2 h hno
    rw [word_dictAux_cons] at h
    rcases hp : parseVocabLine line with _ | ⟨s, m⟩
    · rw [hp] at h
      cases h
    · rw [hp] at h
      have hst : s ≠ t := hno line (List.mem_cons_self _ _) s m hp
      have hpres := ih (dictInsert d s m) d2 h
        (fun l hl => hno l (List.mem_cons_of_mem _ hl))
      rw [hpres, alookup_dictInsert_other d s t m (Ne.symm hst)]

/-- Claim C6: when the vocabulary source repeats a term on several lines,
the loaded dict maps the term to the id of its last occurrence — the later
assignment overwrites the earlier one — and no duplicate detection or
error is raised (the build succeeds whenever every line parses). -/
theorem c6_last_occurrence_wins (lines1 lines2 : List String) (line : String)
    (t : String) (n : Int)
    (hp : parseVocabLine line = some (t, n))
    (hwf1 : ∀ l ∈ lines1, (parseVocabLine l).isSome)
    (hwf2 : ∀ l ∈ lines2, (parseVocabLine l).isSome)
    (hlater : ∀ l ∈ lines2, ∀ s m, parseVocabLine l = some (s, m) → s ≠ t) :
    (word_dict (lines1 ++ line :: lines2)).bind (fun d => alookup d t) = some n := by
  unfold word_dict
  rw [word_dictAux_append lines1 (line :: lines2) []]
  obtain ⟨d1, hd1⟩ :=
    Option.isSome_iff_exists.mp (word_dictAux_isSome lines1 [] hwf1)
  rw [hd1, Option.some_bind]
  rw [word_dictAux_cons, hp]
  show (word_dictAux (dictInsert d1 t n) lines2).bind (fun d => alookup d t) = some n
  obtain ⟨d2, hd2⟩ := Option.isSome_iff_exists.mp
    (word_dictAux_isSome lines2 (dictInsert d1 t n) hwf2)
  rw [hd2, Option.some_bind]
  rw [word_dictAux_lookup_pres t lines2 (dictInsert d1 t n) d2 hd2 hlater]
  exact alookup_dictInsert_self d1 t n

theorem c6_last_occurrence_wins_witness :
    (word_dict ["a\t0", "a\t1"]).bind (fun d => alookup d "a") = some 1 :=
  c6_last_occurrence_wins ["a\t0"] [] "a\t1" "a" 1
    (by decide) (by decide) (by intro l hl; cases hl) (by intro l hl; cases hl)

/-! ## Lemmas about the label counter -/

theorem not_mem_keys_of_any_false {β : Type} (d : List (String × β)) (l : String)
    (h : (d.any fun p => p.1 = l) = false) : l ∉ d.map Prod.fst := by
  intro hm
  obtain ⟨p, hp, hpe⟩ := List.mem_map.mp hm
  have hd : (d.any fun p => p.1 = l) = true :=
    List.any_eq_true.mpr ⟨p, hp, by simp [hpe]⟩
  rw [hd] at h
  cases h

theorem any_of_mem_keys {β : Type} (d : List (String × β)) (l : String)
    (h : l ∈ d.map Prod.fst) : (d.any fun p => p.1 = l) = true := by
  obtain ⟨p, hp, hpe⟩ := List.mem_map.mp h
  exact List.any_eq_true.mpr ⟨p, hp, by simp [hpe]⟩

theorem counterIncr_keys_true (d : List (String × Nat)) (l : String)
    (h : (d.any fun p => p.1 = l) = true) :
    (counterIncr d l).map Prod.fst = d.map Prod.fst := by
  unfold counterIncr
  rw [if_pos h, List.map_map]
  apply List.map_congr_left
  intro p _
  by_cases hp : p.1 = l <;> simp [Function.comp, hp]

theorem counterIncr_keys_false (d : List (String × Nat)) (l : String)
    (h : (d.any fun p => p.1 = l) = false) :
    (counterIncr d l).map Prod.fst = d.map Prod.fst ++ [l] := by
  unfold counterIncr
  rw [if_neg (by intro ht; rw [h] at ht; cases ht), List.map_append]
  rfl

theorem counterIncr_mem_keys (d : List (String × Nat)) (l l2 : String) :
    l2 ∈ (counterIncr d l).map Prod.fst ↔ l2 ∈ d.map Prod.fst ∨ l2 = l := by
  by_cases h : (d.any fun p => p.1 = l) = true
  · rw [counterIncr_keys_true d l h]
    constructor
    · exact Or.inl
    · rintro (hm | rfl)
      · exact hm
      · obtain ⟨p, hp, hpe⟩ := List.any_eq_true.mp h
        exact List.mem_map.mpr ⟨p, hp, by simpa using hpe⟩
  · rw [counterIncr_keys_false d l (Bool.eq_false_iff.mpr h)]
    simp [List.mem_append]

theorem counterIncr_keys_nodup (d : List (String × Nat)) (l : String)
    (h : (d.map Prod.fst).Nodup) : ((counterIncr d l).map Prod.fst).Nodup := by
  by_cases ha : (d.any fun p => p.1 = l) = true
  · rw [counterIncr_keys_true d l ha]
    exact h
  · rw [counterIncr_keys_false d l (Bool.eq_false_iff.mpr ha)]
    simp [List.nodup_append, h]
    intro x hx
    exact not_mem_keys_of_any_false d l (Bool.eq_false_iff.mpr ha)
      (List.mem_map.mpr ⟨(l, x), hx, rfl⟩)

theorem alookup_mapIncr (d : List (String × Nat)) (l : String) :
    alookup (d.map (fun p => if p.1 = l then (p.1, p.2 + 1) else p)) l
      = (alookup d l).map (· + 1) := by
  induction d with
  | nil => rfl
  | cons p rest ih =>
    by_cases hp : p.1 = l
    · simp [alookup, hp]
    · simp [alookup, hp, ih]

theorem alookup_mapIncr_other (d : List (String × Nat)) (l l2 : String)
    (hne : l2 ≠ l) :
    alookup (d.map (fun p => if p.1 = l then (p.1, p.2 + 1) else p)) l2
      = alookup d l2 := by
  induction d with
  | nil => rfl
  | cons p rest ih =>
    by_cases hp : p.1 = l
    · have h1 : l ≠ l2 := fun he => hne he.symm
      simp [alookup, hp, h1, ih]
    · by_cases hp2 : p.1 = l2
      · simp [alookup, hp, hp2, hne]
      · simp [alookup, hp, hp2, ih]

theorem counterIncr_lookup_self (d : List (String × Nat)) (l : String) :
    alookup (counterIncr d l) l = some ((alookup d l).getD 0 + 1) := by
  unfold counterIncr
  by_cases h : (d.any fun p => p.1 = l) = true
  · rw [if_pos h, alookup_mapIncr]
    obtain ⟨v, hv⟩ := Option.isSome_iff_exists.mp ((any_key_iff d l).mp h)
    rw [hv]
    rfl
  · rw [if_neg h, alookup_append]
    have hnone : alookup d l = none := by
      rcases ho : alookup d l with _ | v
      · rfl
      · exact absurd ((any_key_iff d l).mpr (by simp [ho])) h
    rw [hnone]
    simp [alookup]

theorem counterIncr_lookup_other (d : List (String × Nat)) (l l2 : String)
    (hne : l2 ≠ l) : alookup (counterIncr d l) l2 = alookup d l2 := by
  unfold counterIncr
  by_cases h : (d.any fun p => p.1 = l) = true
  · rw [if_pos h]
    exact alookup_mapIncr_other d l l2 hne
  · rw [if_neg h, alookup_append]
    rcases ho : alookup d l2 with _ | v
    · have h1 : l ≠ l2 := fun he => hne he.symm
      simp [alookup, h1]
    · rfl

theorem counter_fold_count (labels : List String) :
    ∀ (d : List (String × Nat)) (l : String),
      (alookup (labels.foldl counterIncr d) l).getD 0
        = (alookup d l).getD 0 + labels.count l := by
  induction labels with
  | nil => intro d l; simp
  | cons x rest ih =>
    intro d l
    rw [List.foldl_cons, ih (counterIncr d x) l]
    by_cases hx : x = l
    · subst hx
      rw [counterIncr_lookup_self, List.count_cons_self]
      simp
      omega
    · rw [counterIncr_lookup_other d x l (fun he => hx he.symm),
          List.count_cons_of_ne (fun he => hx he.symm)]

theorem counter_fold_keys (labels : List String) :
    ∀ (d : List (String × Nat)) (l : String),
      l ∈ (labels.foldl counterIncr d).map Prod.fst
        ↔ l ∈ d.map Prod.fst ∨ l ∈ labels := by
  induction labels with
  | nil => intro d l; simp
  | cons x rest ih =>
    intro d l
    rw [List.foldl_cons, ih (counterIncr d x) l, counterIncr_mem_keys]
    simp [List.mem_cons]
    tauto

theorem counter_fold_nodup (labels : List String) :
    ∀ d : List (String × Nat), (d.map Prod.fst).Nodup →
      ((labels.foldl counterIncr d).map Prod.fst).Nodup := by
  induction labels with
  | nil => intro d h; exact h
  | cons x rest ih =>
    intro d h
    rw [List.foldl_cons]
    exact ih (counterIncr d x) (counterIncr_keys_nodup d x h)

theorem alookup_of_mem_nodup {β : Type} (d : List (String × β)) (l : String) (v : β)
    (hnd : (d.map Prod.fst).Nodup) (hm : (l, v) ∈ d) : alookup d l = some v := by
  induction d with
  | nil => cases hm
  | cons p rest ih =>
    rw [List.map_cons] at hnd
    obtain ⟨hh, ht⟩ := List.nodup_cons.mp hnd
    rcases List.mem_cons.mp hm with h | h
    · rw [← h]
      simp [alookup]
    · have hp : p.1 ≠ l := by
        intro he
        exact hh (he ▸ List.mem_map.mpr ⟨(l, v), h, rfl⟩)
      simp [alookup, hp]
      exact ih ht h

theorem mem_of_alookup {β : Type} (d : List (String × β)) (l : String) (v : β)
    (h : alookup d l = some v) : (l, v) ∈ d := by
  induction d with
  | nil => cases h
  | cons p rest ih =>
    unfold alookup at h
    by_cases hp : p.1 = l
    · rw [if_pos hp] at h
      have hv : p.2 = v := Option.some.inj h
      exact List.mem_cons.mpr (Or.inl (by rw [← hp, ← hv]))
    · rw [if_neg hp] at h
      exact List.mem_cons_of_mem _ (ih h)

theorem foldl_max_mem_le (rest : List (String × Nat)) :
    ∀ p : String × Nat,
      (rest.foldl (fun best q => if q.2 > best.2 then q else best) p) ∈ p :: rest
      ∧ ∀ q ∈ p :: rest,
        q.2 ≤ (rest.foldl (fun best q => if q.2 > best.2 then q else best) p).2 := by
  induction rest with
  | nil =>
    intro p
    refine ⟨List.mem_cons_self _ _, ?_⟩
    intro q hq
    rcases List.mem_cons.mp hq with h | h
    · rw [h]
      exact le_rfl
    · cases h
  | cons r rs ih =>
    intro p
    rw [List.foldl_cons]
    obtain ⟨ihm, ihle⟩ := ih (if r.2 > p.2 then r else p)
    constructor
    · rcases List.mem_cons.mp ihm with h | h
      · rw [h]
        by_cases hc : r.2 > p.2
        · rw [if_pos hc]
          exact List.mem_cons_of_mem _ (List.mem_cons_self _ _)
        · rw [if_neg hc]
          exact List.mem_cons_self _ _
      · exact List.mem_cons_of_mem _ (List.mem_cons_of_mem _ h)
    · have hbase : (if r.2 > p.2 then r else p).2
          ≤ (rs.foldl (fun best q => if q.2 > best.2 then q else best)
              (if r.2 > p.2 then r else p)).2 :=
        ihle _ (List.mem_cons_self _ _)
      intro q hq
      rcases List.mem_cons.mp hq with h | h
      · have hple : p.2 ≤ (if r.2 > p.2 then r else p).2 := by
          by_cases hc : r.2 > p.2
          · rw [if_pos hc]; omega
          · rw [if_neg hc]
        rw [h]
        exact le_trans hple hbase
      · rcases List.mem_cons.mp h with h2 | h2
        · have hrle : r.2 ≤ (if r.2 > p.2 then r else p).2 := by
            by_cases hc : r.2 > p.2
            · rw [if_pos hc]
            · rw [if_neg hc]; omega
          rw [h2]
          exact le_trans hrle hbase
        · exact ihle q (List.mem_cons_of_mem _ h2)

/-- Claim C7: when one training label is strictly most frequent, `zero_r`
predicts that majority label for every row of any test matrix, and the
prediction list has exactly one entry per test row. -/
theorem c7_zero_r_majority (tl : List String) (tf : List (List Int)) (A : String)
    (hA : A ∈ tl) (hmaj : ∀ B ∈ tl, B ≠ A → tl.count B < tl.count A) :
    zero_r tl tf = some (List.replicate tf.length A)
    ∧ (List.replicate tf.length A).length = tf.length
    ∧ ∀ p ∈ List.replicate tf.length A, p = A := by
  have hkeysA : A ∈ (counterList tl).map Prod.fst :=
    (counter_fold_keys tl [] A).mpr (Or.inr hA)
  have hnd : ((counterList tl).map Prod.fst).Nodup :=
    counter_fold_nodup tl [] (by simp)
  rcases hc : counterList tl with _ | ⟨p0, rest⟩
  · rw [hc] at hkeysA
    cases hkeysA
  · obtain ⟨hm, hle⟩ := foldl_max_mem_le rest p0
    have hrmem : (rest.foldl (fun best q => if q.2 > best.2 then q else best) p0)
        ∈ counterList tl := by rw [hc]; exact hm
    rcases hrp : rest.foldl (fun best q => if q.2 > best.2 then q else best) p0
      with ⟨rl, rc⟩
    rw [hrp] at hrmem hle
    have hlookupr : alookup (counterList tl) rl = some rc :=
      alookup_of_mem_nodup (counterList tl) rl rc hnd hrmem
    have hrc : rc = tl.count rl := by
      have hcf := counter_fold_count tl [] rl
      rw [counterList] at hlookupr
      rw [hlookupr] at hcf
      simpa [alookup] using hcf
    have hrltl : rl ∈ tl := by
      have hmk : rl ∈ (counterList tl).map Prod.fst :=
        List.mem_map.mpr ⟨(rl, rc), hrmem, rfl⟩
      rcases (counter_fold_keys tl [] rl).mp hmk with h | h
      · cases h
      · exact h
    obtain ⟨vA, hvA⟩ := Option.isSome_iff_exists.mp
      ((any_key_iff (counterList tl) A).mp (any_of_mem_keys (counterList tl) A hkeysA))
    have hvAc : vA = tl.count A := by
      have hcf := counter_fold_count tl [] A
      rw [counterList] at hvA
      rw [hvA] at hcf
      simpa [alookup] using hcf
    have hAmem : (A, vA) ∈ counterList tl := by
      rw [counterList]
      exact mem_of_alookup _ A vA (by rw [← counterList]; exact hvA)
    have hAle : vA ≤ rc := by
      have := hle (A, vA) (by rw [← hc]; exact hAmem)
      simpa using this
    have hrlA : rl = A := by
      by_contra hne
      have hlt := hmaj rl hrltl hne
      omega
    have hmc : most_common_first (counterList tl) = some (rl, rc) := by
      rw [hc]
      show some (rest.foldl (fun best q => if q.2 > best.2 then q else best) p0)
        = some (rl, rc)
      rw [hrp]
    subst hrlA
    refine ⟨?_, ?_, ?_⟩
    · unfold zero_r
      rw [hmc]
    · exact List.length_replicate _ _
    · intro p hp
      exact List.eq_of_mem_replicate hp

theorem c7_zero_r_majority_witness :
    zero_r ["A", "A", "B"] [[1], [2]] = some (List.replicate 2 "A")
    ∧ (List.replicate 2 "A").length = 2 := by
  have h := c7_zero_r_majority ["A", "A", "B"] [[1], [2]] "A" (by decide) (by decide)
  exact ⟨h.1, h.2.1⟩

/-! ## Lemmas about the spec-modelled feature selector -/

theorem insertDesc_length (score : Nat → Frac) (i : Nat) :
    ∀ l : List Nat, (insertDesc score i l).length = l.length + 1 := by
  intro l
  induction l with
  | nil => rfl
  | cons j rest ih =>
    unfold insertDesc
    by_cases hc : fltb (score j) (score i) = true
    · rw [if_pos hc]
      rfl
    · rw [if_neg hc]
      simp [ih]

theorem foldl_insertDesc_length (score : Nat → Frac) (xs : List Nat) :
    ∀ acc : List Nat,
      (xs.foldl (fun a i => insertDesc score i a) acc).length
        = acc.length + xs.length := by
  induction xs with
  | nil => intro acc; simp
  | cons x rest ih =>
    intro acc
    rw [List.foldl_cons, ih (insertDesc score x acc), insertDesc_length]
    simp only [List.length_cons]
    omega

theorem sortDesc_length (score : Nat → Frac) (w : Nat) :
    (sortDesc score w).length = w := by
  unfold sortDesc
  rw [foldl_insertDesc_length]
  simp

theorem fit_selected_length (m : List (List Int)) (labels : List String) (k : Nat)
    (s : SelectedFeatureSet) (h : fit m labels k = some s) :
    s.selected.length = k ∧ s.nFeatures = (m.headD []).length := by
  unfold fit at h
  by_cases hg : k = 0 ∨ (m.headD []).length < k
  · rw [if_pos hg] at h
    cases h
  · rw [if_neg hg] at h
    push_neg at hg
    obtain rfl := (Option.some.inj h).symm
    constructor
    · rw [List.length_take, sortDesc_length]
      exact Nat.min_eq_left hg.2
    · rfl

/-- Claim C2 (selector modelled from the spec): `transform` with a fitted
`SelectedFeatureSet` is deterministic — applying it twice to the same
matrix yields identical results — and order-preserving: any matrix of the
fitted width projects to exactly the selected columns in selection order,
so train, dev, and test all come out with column count `k` and the same
column-to-term mapping (output column `j` is input column `selected j`). -/
theorem c2_transform_consistent (m0 : List (List Int)) (lab : List String) (k : Nat)
    (s : SelectedFeatureSet) (hfit : fit m0 lab k = some s)
    (m : List (List Int)) (hm : ∀ row ∈ m, row.length = s.nFeatures) :
    (∀ p q, transform s m = some p → transform s m = some q → p = q)
    ∧ transform s m
        = some (m.map (fun row => s.selected.map (fun j => row.getD j 0)))
    ∧ (∀ p, transform s m = some p →
        p.length = m.length ∧ ∀ row ∈ p, row.length = k) := by
  have hsel : s.selected.length = k := (fit_selected_length m0 lab k s hfit).1
  have hproj : transform s m
      = some (m.map (fun row => s.selected.map (fun j => row.getD j 0))) := by
    unfold transform
    rw [if_pos hm]
  refine ⟨?_, hproj, ?_⟩
  · intro p q hp hq
    rw [hp] at hq
    exact Option.some.inj hq
  · intro p hp
    rw [hproj] at hp
    obtain rfl := Option.some.inj hp
    constructor
    · exact List.length_map _ _
    · intro row hr
      obtain ⟨r0, _, hre⟩ := List.mem_map.mp hr
      rw [← hre, List.length_map, hsel]

theorem c2_transform_consistent_witness :
    transform ⟨2, [0]⟩ [[3, 4]] = some [[3]]
    ∧ ([[3]] : List (List Int)).length = 1 := by
  have h := c2_transform_consistent [[1, 0], [0, 1]] ["X", "Y"] 1 ⟨2, [0]⟩
    (by decide) [[3, 4]] (by decide)
  exact ⟨h.2.1.trans (by decide), by decide⟩

theorem runPipeline_sel (dict : List (String × Int)) (tL dL eL : List String)
    (k : Nat)
    (out : SelectedFeatureSet × List (List Int) × List (List Int) × List (List Int))
    (h : runPipeline dict tL dL eL k = some out) :
    selOf dict tL k = some out.1 := by
  unfold runPipeline at h
  unfold selOf
  split at h
  · cases h
  · split at h
    · split at h
      · cases h
      · rename_i s heqF
        split at h
        · obtain rfl := Option.some.inj h
          exact heqF
        · cases h
    · cases h

/-- Claim C3 (selector modelled from the spec): feature selection is
leak-free — the `SelectedFeatureSet` the pipeline fits depends only on the
training lines, labels, and `k`, so replacing (in particular permuting)
the development and test rows leaves the selected set unchanged. -/
theorem c3_fit_leak_free (dict : List (String × Int))
    (trainL devL testL devL2 testL2 : List String) (k : Nat)
    (h1 : (runPipeline dict trainL devL testL k).isSome)
    (h2 : (runPipeline dict trainL devL2 testL2 k).isSome) :
    (runPipeline dict trainL devL testL k).map (fun o => o.1)
      = (runPipeline dict trainL devL2 testL2 k).map (fun o => o.1) := by
  obtain ⟨o1, ho1⟩ := Option.isSome_iff_exists.mp h1
  obtain ⟨o2, ho2⟩ := Option.isSome_iff_exists.mp h2
  have e1 := runPipeline_sel dict trainL devL testL k o1 ho1
  have e2 := runPipeline_sel dict trainL devL2 testL2 k o2 ho2
  rw [ho1, ho2]
  show some o1.1 = some o2.1
  rw [e1] at e2
  rw [Option.some.inj e2]

theorem c3_fit_leak_free_witness :
    (runPipeline [("a", 0), ("b", 1)] ["X,\"[(0, 1)]\"", "Y,\"[(1, 2)]\""]
        ["Z,\"[(0, 3)]\""] [",\"[]\""] 1).map (fun o => o.1)
      = (runPipeline [("a", 0), ("b", 1)] ["X,\"[(0, 1)]\"", "Y,\"[(1, 2)]\""]
        ["Q,\"[(1, 5)]\""] ["A,\"[]\""] 1).map (fun o => o.1) :=
  c3_fit_leak_free [("a", 0), ("b", 1)] ["X,\"[(0, 1)]\"", "Y,\"[(1, 2)]\""]
    ["Z,\"[(0, 3)]\""] [",\"[]\""] ["Q,\"[(1, 5)]\""] ["A,\"[]\""] 1
    (by decide) (by decide)
